import Mathlib

set_option maxHeartbeats 1000000

/- Verification development for the HashMap repository (src/HashMap.hpp).
   The C++ containers are shallowly embedded: the dynamic array `Array<T>`
   becomes `CArray` (the allocated backing storage is an explicit
   `Option (List T)` whose length is the allocation size, so that `nullptr`
   and the real slot count are visible), the doubly linked `LinkedList<T>`
   becomes a heap of identified nodes, and `HashMap<K, V>` becomes a list of
   buckets.  Machine integers are `Nat` with explicit `% 2 ^ 64` where the
   C++ code computes in `std::size_t`.  Operations whose C++ source has
   undefined behaviour on some inputs (out-of-bounds writes, dereferencing
   a dangling pointer) return `Option`, with `none` marking the undefined
   case. -/

/- ------------------------------------------------------------------ -/
/- Array<T>  (src/HashMap.hpp lines 248-358)                           -/
/- ------------------------------------------------------------------ -/

/-- Model of `Array<T>`: `buffer` is the allocated storage (`none` models
`m_array == nullptr`; the list length is the number of allocated slots,
`new T[n]` default-initialises them), `msize` is `m_size`, `mcapacity` is
`m_capacity`. -/
structure CArray (T : Type) where
  buffer : Option (List T)
  msize : Nat
  mcapacity : Nat
deriving DecidableEq

/-- Embeds `Array(std::size_t capacity = 16)`: allocates `capacity` slots, size 0. -/
def mkCArray (T : Type) [Inhabited T] (capacity : Nat := 16) : CArray T :=
  { buffer := some (List.replicate capacity default), msize := 0, mcapacity := capacity }

/-- Embeds `Array::pushBack` (lines 300-316).  If the buffer is null it is lazily
re-allocated with a default capacity of 16; then `m_array[m_size++] = element`
(writing past the real allocation is undefined behaviour, modelled as `none`);
if `m_size` reached `m_capacity` the capacity doubles and the elements are
copied into a fresh buffer which replaces the old one. -/
def CArray.pushBack [Inhabited T] (a0 : CArray T) (e : T) : Option (CArray T) :=
  let a : CArray T := match a0.buffer with
    | none =>
      let cap := if a0.mcapacity = 0 then 16 else a0.mcapacity
      { buffer := some (List.replicate cap default), msize := 0, mcapacity := cap }
    | some _ => a0
  match a.buffer with
  | none => none
  | some buf =>
    if a.msize < buf.length then
      let buf1 := buf.set a.msize e
      let sz := a.msize + 1
      if sz = a.mcapacity then
        some { buffer := some (buf1.take sz ++ List.replicate (2 * a.mcapacity - sz) default),
               msize := sz, mcapacity := 2 * a.mcapacity }
      else
        some { buffer := some buf1, msize := sz, mcapacity := a.mcapacity }
    else none

/-- Embeds `Array::resize` (lines 318-335).  For `cap == 0` the storage is released
(`m_array = nullptr`, size and capacity zeroed).  For `cap > 0` the source
allocates `newArray`, sets `m_capacity = cap` and copies
`min(m_size, m_capacity)` elements into `newArray` - but `m_array` is never
reassigned and the old buffer is never released, so `newArray` leaks and the
backing storage is left exactly as it was: only `m_capacity` changes. -/
def CArray.resize (a : CArray T) (cap : Nat) : CArray T :=
  if cap = 0 then
    { buffer := none, msize := 0, mcapacity := 0 }
  else
    { a with mcapacity := cap }

/-- Embeds `Array::Array(Array&&)` (lines 264-271): steals the buffer, size and
capacity; the moved-from array is zeroed with a null buffer.  Returns
(new array, moved-from source). -/
def CArray.moveCtor (a : CArray T) : CArray T × CArray T :=
  ({ buffer := a.buffer, msize := a.msize, mcapacity := a.mcapacity },
   { buffer := none, msize := 0, mcapacity := 0 })

/-- Number of actually allocated slots (0 for a null buffer). -/
def CArray.allocLen (a : CArray T) : Nat := (a.buffer.map List.length).getD 0

/-- The live elements, `m_array[0] .. m_array[m_size-1]`, as iterated by
`begin()/end()` (lines 337-343). -/
def CArray.elems (a : CArray T) : List T := (a.buffer.getD []).take a.msize

/-- Embeds `Array::~Array` (lines 273-277) frees the buffer exactly when it is
non-null. -/
def CArray.dtorFrees (a : CArray T) : Bool := a.buffer.isSome

/-- C9: after move-constructing an `Array` from a source array, the new array
holds exactly the source's former elements, size and capacity, and the
moved-from source is left with size 0, capacity 0 and a null backing buffer,
so its destructor frees nothing and cannot disturb the new array. -/
theorem array_move_ctor_spec {T : Type} (a : CArray T) :
    (a.moveCtor.1.buffer = a.buffer ∧ a.moveCtor.1.msize = a.msize ∧
      a.moveCtor.1.mcapacity = a.mcapacity ∧ a.moveCtor.1.elems = a.elems) ∧
    a.moveCtor.2 = { buffer := none, msize := 0, mcapacity := 0 } ∧
    a.moveCtor.2.dtorFrees = false :=
  ⟨⟨rfl, rfl, rfl, rfl⟩, rfl, rfl⟩

/-- C3: evaluation of `Array::resize` at a failing input.  After
`Array<int> a; a.pushBack(42); a.resize(100)` the code reports
`capacity() == 100` but the backing storage still has its old 16 slots: the
freshly allocated 100-slot buffer is leaked because `m_array` is never
reassigned, contradicting the claimed reallocation to exactly `newCapacity`
slots.  The `resize(0)` branch and the lazy re-allocation in `pushBack` do
behave as claimed. -/
theorem array_resize_bug_eval :
    ((mkCArray Nat 16).pushBack 42).map
        (fun a => ((a.resize 100).mcapacity, (a.resize 100).allocLen, (a.resize 100).elems)) =
      some (100, 16, [42]) ∧
    (100 : Nat) ≠ 16 ∧
    ((mkCArray Nat 16).pushBack 42).map (fun a => a.resize 0) =
      some { buffer := none, msize := 0, mcapacity := 0 } ∧
    ((mkCArray Nat 16).resize 0).pushBack 7 =
      some { buffer := some (7 :: List.replicate 15 0), msize := 1, mcapacity := 16 } := by
  refine ⟨by decide, by decide, by decide, by decide⟩

/- ------------------------------------------------------------------ -/
/- hash<Array<std::uint8_t>>  (src/HashMap.hpp lines 465-473)          -/
/- ------------------------------------------------------------------ -/

/-- One step of the byte-array hash loop (line 469-470):
`checksum = (checksum >> 1) + ((checksum & 1) << 32); checksum += it;`
computed in `std::size_t`, i.e. modulo `2 ^ 64`. -/
def bsdStep (c b : Nat) : Nat := ((c / 2 + c % 2 * 2 ^ 32) % 2 ^ 64 + b) % 2 ^ 64

/-- Embeds `hash<Array<std::uint8_t>>`: fold of `bsdStep` over the array elements,
starting from 0. -/
def hashByteArray (a : CArray Nat) : Nat := a.elems.foldl bsdStep 0

/-- Stated from the claim's words, for comparison with the source: a genuine
rotate-right-by-1 of the 64-bit running checksum, then add the byte. -/
def ror64Step (c b : Nat) : Nat := ((c / 2 + c % 2 * 2 ^ 63) % 2 ^ 64 + b) % 2 ^ 64

/-- The byte-array hash the claim describes: left fold of `ror64Step`. -/
def ror64HashBytes (a : CArray Nat) : Nat := a.elems.foldl ror64Step 0

/-- C7 counterexample: on the two-byte buffer `[1, 0]` the source hash moves
the low bit to bit 32 (giving `2 ^ 32`), while rotating the checksum right by
one bit would move it to bit 63 (giving `2 ^ 63`); the two disagree. -/
theorem hashBytes_rotate_counterexample :
    hashByteArray { buffer := some [1, 0], msize := 2, mcapacity := 2 } ≠
      ror64HashBytes { buffer := some [1, 0], msize := 2, mcapacity := 2 } := by
  decide

/-- Auxiliary bound: folding `bsdStep` from any accumulator at most
`2 ^ 33 + 512` over bytes `< 256` never overflows 64 bits, so the
`% 2 ^ 64` reductions are exact and each step is plain
`c / 2 + c % 2 * 2 ^ 32 + b`. -/
theorem bsdStep_fold_eq_pure (l : List Nat) :
    ∀ c : Nat, (∀ b ∈ l, b < 256) → c ≤ 2 ^ 33 + 512 →
      l.foldl bsdStep c = l.foldl (fun c b => c / 2 + c % 2 * 2 ^ 32 + b) c := by
  induction l with
  | nil => intro c _ _; rfl
  | cons b t ih =>
    intro c hb hc
    have hb0 : b < 256 := hb b (List.mem_cons_self b t)
    have h32 : (2 : Nat) ^ 32 = 4294967296 := by norm_num
    have h33 : (2 : Nat) ^ 33 = 8589934592 := by norm_num
    have h64 : (2 : Nat) ^ 64 = 18446744073709551616 := by norm_num
    have hstep : bsdStep c b = c / 2 + c % 2 * 2 ^ 32 + b := by
      unfold bsdStep
      rw [h32, h64] at *
      omega
    have hnext : c / 2 + c % 2 * 2 ^ 32 + b ≤ 2 ^ 33 + 512 := by
      rw [h32, h33] at *
      omega
    simp only [List.foldl_cons, hstep]
    exact ih _ (fun x hx => hb x (List.mem_cons_of_mem _ hx)) hnext

/-- C7 amended: for every byte buffer, the hash is the left fold, starting
from 0, of: shift the running checksum right by one bit and add the former
low bit times `2 ^ 32` (the low bit moves to bit 32 - a rotate only of the
low 33 bits, not of the full `size_t`), then add the byte, with no final
avalanche step. -/
theorem hashBytes_amended (a : CArray Nat) (hb : ∀ b ∈ a.elems, b < 256) :
    hashByteArray a = a.elems.foldl (fun c b => c / 2 + c % 2 * 2 ^ 32 + b) 0 :=
  bsdStep_fold_eq_pure a.elems 0 hb (by norm_num)

/-- C7 amended, witness: the amended statement evaluated on the concrete
buffer `[1, 0]`. -/
theorem hashBytes_amended_witness :
    (∀ b ∈ CArray.elems { buffer := some [1, 0], msize := 2, mcapacity := 2 }, b < 256) ∧
    hashByteArray { buffer := some [1, 0], msize := 2, mcapacity := 2 } =
      (CArray.elems { buffer := some [1, 0], msize := 2, mcapacity := 2 }).foldl
        (fun c b => c / 2 + c % 2 * 2 ^ 32 + b) 0 :=
  ⟨by decide, hashBytes_amended _ (by decide)⟩

/- ------------------------------------------------------------------ -/
/- LinkedList<T>  (src/HashMap.hpp lines 30-235)                       -/
/- ------------------------------------------------------------------ -/

/-- Model of `ListItem<T>`: a heap node with its value and the `prev` /
`next` pointers (`none` models `nullptr`, `some i` a pointer to the node
with allocation id `i`). -/
structure LNode (T : Type) where
  value : T
  prev : Option Nat
  next : Option Nat
deriving DecidableEq

/-- Model of `LinkedList<T>`: `mem` is the set of currently allocated nodes
(in allocation-chain order), identified by ids; `head`/`tail` are `m_head` /
`m_tail` (possibly dangling: an id no longer in `mem`); `fresh` is the next
allocation id. -/
structure LList (T : Type) where
  mem : List (Nat × LNode T)
  head : Option Nat
  tail : Option Nat
  fresh : Nat
deriving DecidableEq

/-- The default-constructed list: `m_head = m_tail = nullptr`. -/
def emptyLL (T : Type) : LList T := ⟨[], none, none, 0⟩

/-- Dereference a node pointer: `none` when the id is not allocated (a
dangling pointer, whose dereference is undefined behaviour). -/
def lookupMem (mem : List (Nat × LNode T)) (i : Nat) : Option (LNode T) :=
  (mem.find? (fun p => decide (p.1 = i))).map (fun p => p.2)

/-- Embeds `node->next = nx` for the node with id `i`. -/
def setNext (mem : List (Nat × LNode T)) (i : Nat) (nx : Option Nat) :
    List (Nat × LNode T) :=
  mem.map (fun p => if p.1 = i then (p.1, { p.2 with next := nx }) else p)

/-- Embeds `node->prev = pv` for the node with id `i`. -/
def setPrev (mem : List (Nat × LNode T)) (i : Nat) (pv : Option Nat) :
    List (Nat × LNode T) :=
  mem.map (fun p => if p.1 = i then (p.1, { p.2 with prev := pv }) else p)

/-- Embeds `LinkedList::pushBack` (lines 149-158): empty list gets a single node;
otherwise `m_tail->next = new node; new->prev = m_tail; m_tail = new`.
Dereferencing a dangling `m_tail` is undefined behaviour (`none`). -/
def LList.pushBackL (l : LList T) (v : T) : Option (LList T) :=
  match l.head with
  | none => some ⟨l.mem ++ [(l.fresh, ⟨v, none, none⟩)], some l.fresh, some l.fresh, l.fresh + 1⟩
  | some _ =>
    match l.tail with
    | none => none
    | some t =>
      match lookupMem l.mem t with
      | none => none
      | some _ =>
        some ⟨setNext l.mem t (some l.fresh) ++ [(l.fresh, ⟨v, some t, none⟩)],
              l.head, some l.fresh, l.fresh + 1⟩

/-- Forward traversal collecting node ids, with fuel (the C++ loops simply
follow `next`; exhausted fuel models a cycle, a failed dereference models a
dangling pointer - both undefined). -/
def chainIdsAux (mem : List (Nat × LNode T)) : Nat → Option Nat → Option (List Nat)
  | _, none => some []
  | 0, some _ => none
  | fuel + 1, some i =>
    match lookupMem mem i with
    | none => none
    | some nd => (chainIdsAux mem fuel nd.next).map (fun r => i :: r)

/-- Forward traversal collecting values. -/
def chainValsAux (mem : List (Nat × LNode T)) : Nat → Option Nat → Option (List T)
  | _, none => some []
  | 0, some _ => none
  | fuel + 1, some i =>
    match lookupMem mem i with
    | none => none
    | some nd => (chainValsAux mem fuel nd.next).map (fun r => nd.value :: r)

/-- Embeds `LinkedList::size` (lines 196-205): full traversal from `m_head`;
`none` when the traversal dereferences a dangling pointer or cycles. -/
def LList.sizeL (l : LList T) : Option Nat :=
  (chainIdsAux l.mem l.mem.length l.head).map List.length

/-- Embeds `LinkedList::at` (lines 219-225): walk `n` steps from `m_head`; falling
off the end of the list exits the function without returning a value
(undefined behaviour, modelled as `none`). -/
def atAux (mem : List (Nat × LNode T)) : Nat → Option Nat → Nat → Option T
  | _, none, _ => none
  | 0, some _, _ => none
  | fuel + 1, some i, n =>
    match lookupMem mem i with
    | none => none
    | some nd => if n = 0 then some nd.value else atAux mem fuel nd.next (n - 1)

def LList.atL (l : LList T) (n : Nat) : Option T := atAux l.mem l.mem.length l.head n

/-- Embeds `LinkedList::find` (lines 185-194): `some none` is the end iterator
(value absent), `some (some i)` an iterator to the first node whose value
equals `v`, `none` an undefined traversal. -/
def findAux [DecidableEq T] (mem : List (Nat × LNode T)) (v : T) :
    Nat → Option Nat → Option (Option Nat)
  | _, none => some none
  | 0, some _ => none
  | fuel + 1, some i =>
    match lookupMem mem i with
    | none => none
    | some nd => if nd.value = v then some (some i) else findAux mem v fuel nd.next

def LList.findL [DecidableEq T] (l : LList T) (v : T) : Option (Option Nat) :=
  if l.head = none then some none else findAux l.mem v l.mem.length l.head

/-- Embeds `LinkedList::remove(const ListItem<T>*)` (lines 160-172): a null iterator
is a no-op; otherwise read `i->prev` and `i->next`, fix up the neighbours'
links, and free the node.  `m_head` and `m_tail` are NOT updated by the
source, even when the removed node is the head or the tail. -/
def LList.removeIt (l : LList T) (it : Option Nat) : Option (LList T) :=
  match it with
  | none => some l
  | some i =>
    match lookupMem l.mem i with
    | none => none
    | some nd =>
      let step1 : Option (List (Nat × LNode T)) :=
        match nd.prev with
        | none => some l.mem
        | some p => if (lookupMem l.mem p).isSome then some (setNext l.mem p nd.next) else none
      match step1 with
      | none => none
      | some m1 =>
        let step2 : Option (List (Nat × LNode T)) :=
          match nd.next with
          | none => some m1
          | some q => if (lookupMem m1 q).isSome then some (setPrev m1 q nd.prev) else none
        match step2 with
        | none => none
        | some m2 =>
          some ⟨m2.eraseP (fun p => decide (p.1 = i)), l.head, l.tail, l.fresh⟩

/-- Embeds `LinkedList::remove(std::size_t)` (lines 178-183):
`remove(find(at(n)))`, with an early return when `find` yields the end
iterator. -/
def LList.removeN [DecidableEq T] (l : LList T) (n : Nat) : Option (LList T) :=
  match l.atL n with
  | none => none
  | some x =>
    match l.findL x with
    | none => none
    | some none => some l
    | some (some i) => l.removeIt (some i)

/-- Embeds `LinkedList::clear` (lines 134-147): no-op on a null head; otherwise
free every node reachable from `m_head` and null both `m_head` and
`m_tail`. -/
def LList.clearL (l : LList T) : Option (LList T) :=
  if l.head = none then some l
  else
    match chainIdsAux l.mem l.mem.length l.head with
    | none => none
    | some ids => some ⟨l.mem.filter (fun p => decide (p.1 ∉ ids)), none, none, l.fresh⟩

/-- Embeds `LinkedList::LinkedList(const LinkedList&)` (lines 113-128).  The copy
constructor initialises neither `m_head` nor `m_tail` in its initialiser
list; `m_head` therefore starts with an indeterminate value, modelled by the
`garbage` parameter.  The loop allocates a fresh node per source value, sets
`m_head` only when the indeterminate value reads as null, links `prev`/`next`
between consecutive new nodes, and finally sets `m_tail` to the last node. -/
def LList.copyCtor (garbage : Option Nat) (src : LList T) : Option (LList T) :=
  match chainValsAux src.mem src.mem.length src.head with
  | none => none
  | some vs =>
    let st := vs.foldl
      (fun (st : List (Nat × LNode T) × Option Nat × Option Nat × Nat) v =>
        let mem1 := st.1 ++ [(st.2.2.2, ⟨v, st.2.2.1, none⟩)]
        let mem2 := match st.2.2.1 with
          | none => mem1
          | some p => setNext mem1 p (some st.2.2.2)
        let hd1 := match st.2.1 with
          | none => some st.2.2.2
          | some _ => st.2.1
        (mem2, hd1, some st.2.2.2, st.2.2.2 + 1))
      ([], garbage, none, 0)
    some ⟨st.1, st.2.1, st.2.2.1, st.2.2.2⟩

/-- C4: evaluation at a failing input.  `LinkedList<int> l; l.pushBack(5);
l.remove(0);` removes the only node but leaves `m_head` (and `m_tail`)
pointing at the freed node: afterwards `head = some 0` while no node is
allocated, so `head == null ⇔ size()==0` fails and `size()` itself
dereferences freed memory (undefined, `none`). -/
theorem linkedList_remove_head_bug_eval :
    (emptyLL Nat).pushBackL 5 = some ⟨[(0, ⟨5, none, none⟩)], some 0, some 0, 1⟩ ∧
    (⟨[(0, ⟨5, none, none⟩)], some 0, some 0, 1⟩ : LList Nat).removeN 0 =
      some ⟨[], some 0, some 0, 1⟩ ∧
    (⟨[], some 0, some 0, 1⟩ : LList Nat).head ≠ none ∧
    (⟨[], some 0, some 0, 1⟩ : LList Nat).mem = [] ∧
    (⟨[], some 0, some 0, 1⟩ : LList Nat).sizeL = none := by
  refine ⟨by decide, by decide, by decide, by decide, by decide⟩

/-- C6: evaluation at a failing input.  Copy-constructing from an empty list
with a non-null indeterminate `m_head` (modelled as id 7) yields a copy with
`head = some 7` and `tail = none`: not an empty list, its iteration/`size()`
is undefined.  Copying a one-node list is just as broken: `if(!m_head)` never
fires, so the copy's head keeps the indeterminate value instead of pointing
at the freshly copied node.  Only when the indeterminate value happens to be
null does the copy behave. -/
theorem linkedList_copy_uninit_head_eval :
    LList.copyCtor (some 7) (emptyLL Nat) = some ⟨[], some 7, none, 0⟩ ∧
    (⟨[], some 7, none, 0⟩ : LList Nat).head ≠ (⟨[], some 7, none, 0⟩ : LList Nat).tail ∧
    (⟨[], some 7, none, 0⟩ : LList Nat).sizeL = none ∧
    LList.copyCtor (some 7) (⟨[(0, ⟨5, none, none⟩)], some 0, some 0, 1⟩ : LList Nat) =
      some ⟨[(0, ⟨5, none, none⟩)], some 7, some 0, 1⟩ ∧
    LList.copyCtor none (emptyLL Nat) = some ⟨[], none, none, 0⟩ := by
  refine ⟨by decide, by decide, by decide, by decide, by decide⟩

/-- The allocation ids of a node heap, in chain order. -/
def idsOf (mem : List (Nat × LNode T)) : List Nat := mem.map (fun p => p.1)

/-- The node values of a node heap, in chain order. -/
def valsOf (mem : List (Nat × LNode T)) : List T := mem.map (fun p => p.2.value)

/-- The value sequence of a list (chain order of its heap). -/
def LList.vals (l : LList T) : List T := valsOf l.mem

/-- Structural check that a node heap, read in storage order, is a properly
doubly linked chain: each node's `prev` is the id of its predecessor (or the
given incoming id for the first node) and its `next` the id of its
successor. -/
def chainWFb : Option Nat → List (Nat × LNode T) → Bool
  | _, [] => true
  | prevId, (i, nd) :: rest =>
    decide (nd.prev = prevId) && decide (nd.next = rest.head?.map (fun p => p.1)) &&
      chainWFb (some i) rest

/-- Well-formed list: distinct node ids, `m_head`/`m_tail` point at the
first/last node (or are null for the empty list), and the nodes form a
properly linked chain starting from a null `prev`. -/
@[reducible] def LList.WF (l : LList T) : Prop :=
  (idsOf l.mem).Nodup ∧
  l.head = l.mem.head?.map (fun p => p.1) ∧
  l.tail = l.mem.getLast?.map (fun p => p.1) ∧
  chainWFb none l.mem = true

theorem lookupMem_eq_of_mem {T : Type} :
    ∀ (mem : List (Nat × LNode T)) (i : Nat) (nd : LNode T),
      (i, nd) ∈ mem → (idsOf mem).Nodup → lookupMem mem i = some nd
  | [], i, nd, h, _ => by cases h
  | (j, m) :: rest, i, nd, h, hnd => by
    have hnd' : ¬ j ∈ idsOf rest ∧ (idsOf rest).Nodup := by
      have : idsOf ((j, m) :: rest) = j :: idsOf rest := rfl
      rw [this] at hnd
      exact ⟨(List.nodup_cons.mp hnd).1, (List.nodup_cons.mp hnd).2⟩
    rcases List.mem_cons.mp h with h1 | h2
    · cases h1
      simp [lookupMem, List.find?]
    · have hji : ¬ (j = i) := by
        intro he
        subst he
        exact hnd'.1 (List.mem_map.mpr ⟨(j, nd), h2, rfl⟩)
      have hstep : lookupMem ((j, m) :: rest) i = lookupMem rest i := by
        simp [lookupMem, List.find?, hji]
      rw [hstep]
      exact lookupMem_eq_of_mem rest i nd h2 hnd'.2

theorem lookupMem_isSome_of_mem_ids {T : Type} (mem : List (Nat × LNode T)) (i : Nat)
    (h : i ∈ idsOf mem) : (lookupMem mem i).isSome := by
  rcases List.mem_map.mp h with ⟨pr, hpr, hid⟩
  have : ∃ x ∈ mem, (fun p => decide (p.1 = i)) x = true := ⟨pr, hpr, by simp [hid]⟩
  have hfind : (mem.find? (fun p => decide (p.1 = i))).isSome := List.find?_isSome.mpr this
  simpa [lookupMem] using hfind

theorem idsOf_setNext {T : Type} (mem : List (Nat × LNode T)) (i : Nat) (nx : Option Nat) :
    idsOf (setNext mem i nx) = idsOf mem := by
  induction mem with
  | nil => rfl
  | cons p rest ih =>
    simp only [setNext, idsOf, List.map_cons] at *
    by_cases h : p.1 = i <;> simp [h, ih]

theorem valsOf_setNext {T : Type} (mem : List (Nat × LNode T)) (i : Nat) (nx : Option Nat) :
    valsOf (setNext mem i nx) = valsOf mem := by
  induction mem with
  | nil => rfl
  | cons p rest ih =>
    simp only [setNext, valsOf, List.map_cons] at *
    by_cases h : p.1 = i <;> simp [h, ih]

theorem idsOf_setPrev {T : Type} (mem : List (Nat × LNode T)) (i : Nat) (pv : Option Nat) :
    idsOf (setPrev mem i pv) = idsOf mem := by
  induction mem with
  | nil => rfl
  | cons p rest ih =>
    simp only [setPrev, idsOf, List.map_cons] at *
    by_cases h : p.1 = i <;> simp [h, ih]

theorem valsOf_setPrev {T : Type} (mem : List (Nat × LNode T)) (i : Nat) (pv : Option Nat) :
    valsOf (setPrev mem i pv) = valsOf mem := by
  induction mem with
  | nil => rfl
  | cons p rest ih =>
    simp only [setPrev, valsOf, List.map_cons] at *
    by_cases h : p.1 = i <;> simp [h, ih]

/-- In a well-linked chain every non-null `next` pointer, and every non-null
`prev` pointer other than the incoming one, is an allocated id. -/
theorem chainWFb_ptr_ids {T : Type} :
    ∀ (mem : List (Nat × LNode T)) (prevId : Option Nat), chainWFb prevId mem = true →
      ∀ pr ∈ mem, (∀ q, pr.2.next = some q → q ∈ idsOf mem) ∧
        (∀ q, pr.2.prev = some q → some q = prevId ∨ q ∈ idsOf mem)
  | [], _, _, pr, hpr => by cases hpr
  | (i, nd) :: rest, prevId, hchain, pr, hpr => by
    have hc : nd.prev = prevId ∧ nd.next = rest.head?.map (fun p => p.1) ∧
        chainWFb (some i) rest = true := by
      have := hchain
      simp only [chainWFb, Bool.and_eq_true, decide_eq_true_eq] at this
      exact ⟨this.1.1, this.1.2, this.2⟩
    rcases List.mem_cons.mp hpr with h1 | h2
    · subst h1
      constructor
      · intro q hq
        rw [hc.2.1] at hq
        rcases rest with _ | ⟨r, rs⟩
        · simp at hq
        · simp only [List.head?, Option.map_some] at hq
          cases hq
          simp [idsOf]
      · intro q hq
        rw [hc.1] at hq
        exact Or.inl hq.symm
    · have ih := chainWFb_ptr_ids rest (some i) hc.2.2 pr h2
      constructor
      · intro q hq
        have := ih.1 q hq
        simp only [idsOf, List.map_cons]
        exact List.mem_cons_of_mem _ this
      · intro q hq
        rcases ih.2 q hq with h | h
        · cases h
          exact Or.inr (by simp [idsOf])
        · exact Or.inr (by simp only [idsOf, List.map_cons]; exact List.mem_cons_of_mem _ h)

theorem atAux_suffix {T : Type} :
    ∀ (mem mem0 : List (Nat × LNode T)) (prevId : Option Nat) (fuel n : Nat),
      mem <:+ mem0 → (idsOf mem0).Nodup → chainWFb prevId mem = true →
      mem.length ≤ fuel →
      atAux mem0 fuel (mem.head?.map (fun p => p.1)) n = (valsOf mem)[n]?
  | [], mem0, prevId, fuel, n, _, _, _, _ => by
    simp [atAux, valsOf]
  | (i, nd) :: rest, mem0, prevId, fuel, n, hsuf, hnd0, hchain, hfuel => by
    obtain ⟨f, rfl⟩ : ∃ f, fuel = f + 1 := by
      cases fuel with
      | zero => exact absurd hfuel (by simp)
      | succ f => exact ⟨f, rfl⟩
    have hmem : (i, nd) ∈ mem0 := hsuf.subset (List.mem_cons_self _ _)
    have hlook : lookupMem mem0 i = some nd := lookupMem_eq_of_mem mem0 i nd hmem hnd0
    have hc : nd.prev = prevId ∧ nd.next = rest.head?.map (fun p => p.1) ∧
        chainWFb (some i) rest = true := by
      have := hchain
      simp only [chainWFb, Bool.and_eq_true, decide_eq_true_eq] at this
      exact ⟨this.1.1, this.1.2, this.2⟩
    have hrest : rest <:+ mem0 := (List.suffix_cons (i, nd) rest).trans hsuf
    cases n with
    | zero =>
      simp [atAux, hlook, valsOf]
    | succ m =>
      have ih := atAux_suffix rest mem0 (some i) f m hrest hnd0 hc.2.2
        (by simpa using Nat.succ_le_succ_iff.mp hfuel)
      simp only [List.head?, Option.map_some, atAux, hlook]
      rw [if_neg (by simp)]
      simp only [Nat.add_sub_cancel]
      rw [← hc.2.1] at ih
      rw [ih]
      simp [valsOf]

theorem findAux_suffix {T : Type} [DecidableEq T] (v : T) :
    ∀ (mem mem0 : List (Nat × LNode T)) (prevId : Option Nat) (fuel : Nat),
      mem <:+ mem0 → (idsOf mem0).Nodup → chainWFb prevId mem = true →
      mem.length ≤ fuel →
      findAux mem0 v fuel (mem.head?.map (fun p => p.1)) =
        some ((mem.find? (fun pr => decide (pr.2.value = v))).map (fun pr => pr.1))
  | [], mem0, prevId, fuel, _, _, _, _ => by
    simp [findAux]
  | (i, nd) :: rest, mem0, prevId, fuel, hsuf, hnd0, hchain, hfuel => by
    obtain ⟨f, rfl⟩ : ∃ f, fuel = f + 1 := by
      cases fuel with
      | zero => exact absurd hfuel (by simp)
      | succ f => exact ⟨f, rfl⟩
    have hmem : (i, nd) ∈ mem0 := hsuf.subset (List.mem_cons_self _ _)
    have hlook : lookupMem mem0 i = some nd := lookupMem_eq_of_mem mem0 i nd hmem hnd0
    have hc : nd.prev = prevId ∧ nd.next = rest.head?.map (fun p => p.1) ∧
        chainWFb (some i) rest = true := by
      have := hchain
      simp only [chainWFb, Bool.and_eq_true, decide_eq_true_eq] at this
      exact ⟨this.1.1, this.1.2, this.2⟩
    have hrest : rest <:+ mem0 := (List.suffix_cons (i, nd) rest).trans hsuf
    by_cases hv : nd.value = v
    · simp [findAux, hlook, hv, List.find?]
    · have ih := findAux_suffix v rest mem0 (some i) f hrest hnd0 hc.2.2
        (by simpa using Nat.succ_le_succ_iff.mp hfuel)
      simp only [List.head?, Option.map_some, findAux, hlook]
      rw [if_neg hv, ← hc.2.1] at *
      rw [ih]
      simp [List.find?, hv]

theorem find?_first_index {α : Type} (p : α → Bool) :
    ∀ (l : List α) (pr : α), l.find? p = some pr →
      ∃ j : Nat, l[j]? = some pr ∧ p pr = true ∧
        ∀ k : Nat, k < j → ∀ q, l[k]? = some q → p q = false
  | [], pr, h => by simp [List.find?] at h
  | a :: t, pr, h => by
    by_cases hp : p a
    · have : pr = a := by
        simp [List.find?, hp] at h
        exact h.symm
      subst this
      exact ⟨0, by simp, hp, by intro k hk; omega⟩
    · have ht : t.find? p = some pr := by
        simpa [List.find?, hp] using h
      obtain ⟨j, hj1, hj2, hj3⟩ := find?_first_index p t pr ht
      refine ⟨j + 1, by simpa using hj1, hj2, ?_⟩
      intro k hk q hq
      cases k with
      | zero =>
        simp only [List.getElem?_cons_zero, Option.some_inj] at hq
        subst hq
        simpa using hp
      | succ m =>
        exact hj3 m (by omega) q (by simpa using hq)

theorem eraseP_eq_eraseIdx_of_first {α : Type} (p : α → Bool) :
    ∀ (l : List α) (j : Nat) (pr : α), l[j]? = some pr → p pr = true →
      (∀ k, k < j → ∀ q, l[k]? = some q → p q = false) →
      l.eraseP p = l.eraseIdx j
  | [], j, pr, h, _, _ => by simp at h
  | a :: t, 0, pr, h, hpr, _ => by
    simp only [List.getElem?_cons_zero, Option.some_inj] at h
    subst h
    simp [List.eraseP_cons, hpr]
  | a :: t, j + 1, pr, h, hpr, hmin => by
    have hpa : p a = false := hmin 0 (by omega) a (by simp)
    have ih := eraseP_eq_eraseIdx_of_first p t j pr (by simpa using h) hpr
      (fun k hk q hq => hmin (k + 1) (by omega) q (by simpa using hq))
    simp [List.eraseP_cons, hpa, ih]

theorem map_eraseIdx {α β : Type} (f : α → β) :
    ∀ (l : List α) (j : Nat), (l.eraseIdx j).map f = (l.map f).eraseIdx j
  | [], j => by simp
  | a :: t, 0 => by simp
  | a :: t, j + 1 => by
    simp only [List.eraseIdx_cons_succ, List.map_cons]
    rw [map_eraseIdx f t j]

/-- Embeds `remove(ListItem*)` on an allocated node whose neighbour pointers are
allocated: the node is erased from the heap, the neighbours' links are
patched (preserving every node's id and value), and `m_head`/`m_tail` are
left untouched. -/
theorem removeIt_some {T : Type} (l : LList T) (i : Nat) (nd : LNode T)
    (hl : lookupMem l.mem i = some nd)
    (hp : ∀ p, nd.prev = some p → p ∈ idsOf l.mem)
    (hq : ∀ q, nd.next = some q → q ∈ idsOf l.mem) :
    ∃ m2, l.removeIt (some i) =
        some ⟨m2.eraseP (fun pr => decide (pr.1 = i)), l.head, l.tail, l.fresh⟩ ∧
      idsOf m2 = idsOf l.mem ∧ valsOf m2 = valsOf l.mem := by
  cases hprev : nd.prev with
  | none =>
    cases hnext : nd.next with
    | none =>
      exact ⟨l.mem, by simp [LList.removeIt, hl, hprev, hnext], rfl, rfl⟩
    | some q =>
      have hqi : (lookupMem l.mem q).isSome := lookupMem_isSome_of_mem_ids _ q (hq q hnext)
      refine ⟨setPrev l.mem q nd.prev, ?_, by rw [idsOf_setPrev], by rw [valsOf_setPrev]⟩
      simp [LList.removeIt, hl, hprev, hnext, hqi]
  | some p =>
    have hpi : (lookupMem l.mem p).isSome := lookupMem_isSome_of_mem_ids _ p (hp p hprev)
    cases hnext : nd.next with
    | none =>
      refine ⟨setNext l.mem p nd.next, ?_, by rw [idsOf_setNext], by rw [valsOf_setNext]⟩
      simp [LList.removeIt, hl, hprev, hnext, hpi]
    | some q =>
      have hqi : (lookupMem (setNext l.mem p nd.next) q).isSome := by
        have : q ∈ idsOf (setNext l.mem p nd.next) := by
          rw [idsOf_setNext]
          exact hq q hnext
        exact lookupMem_isSome_of_mem_ids _ q this
      rw [hnext] at hqi
      refine ⟨setPrev (setNext l.mem p nd.next) q nd.prev, ?_, ?_, ?_⟩
      · simp [LList.removeIt, hl, hprev, hnext, hpi, hqi]
      · rw [idsOf_setPrev, idsOf_setNext]
      · rw [valsOf_setPrev, valsOf_setNext]

/-- C10: for every well-formed `LinkedList` and position `n` within the list,
`remove(n)` unlinks and frees the FIRST node whose value equals the value
stored at position `n` - the victim is located by value equality via `find`,
not by position - so there is a first index `j ≤ n` holding that value, the
entry at `j` is the one removed (with duplicate values an earlier equal node
is removed and the node at position `n` itself may remain), and the
remaining values keep their relative order. -/
theorem linkedList_removeN_by_value {T : Type} [DecidableEq T]
    (l : LList T) (n : Nat) (x : T) (hwf : l.WF) (hx : l.vals[n]? = some x) :
    ∃ (l2 : LList T) (j : Nat), l.removeN n = some l2 ∧ j ≤ n ∧ l.vals[j]? = some x ∧
      (∀ k : Nat, k < j → l.vals[k]? ≠ some x) ∧ l2.vals = l.vals.eraseIdx j := by
  obtain ⟨hnd, hhead, htail, hchain⟩ := hwf
  have hat : l.atL n = some x := by
    have h := atAux_suffix l.mem l.mem none l.mem.length n (List.suffix_refl _) hnd hchain
      (le_refl _)
    rw [LList.atL, hhead]
    exact h.trans hx
  have hne : l.mem ≠ [] := by
    intro he
    rw [LList.vals, valsOf, he] at hx
    simp at hx
  have hheadne : ¬ l.head = none := by
    rw [hhead]
    rcases hmem : l.mem with _ | ⟨a, t⟩
    · exact absurd hmem hne
    · simp
  obtain ⟨pr0, hfind⟩ : ∃ pr0, l.mem.find? (fun pr => decide (pr.2.value = x)) = some pr0 := by
    have hexn : ∃ prn, l.mem[n]? = some prn ∧ prn.2.value = x := by
      rw [LList.vals, valsOf, List.getElem?_map] at hx
      rcases Option.map_eq_some'.mp hx with ⟨prn, h1, h2⟩
      exact ⟨prn, h1, h2⟩
    obtain ⟨prn, h1, h2⟩ := hexn
    have hs : (l.mem.find? (fun pr => decide (pr.2.value = x))).isSome :=
      List.find?_isSome.mpr ⟨prn, List.getElem?_mem h1, by simp [h2]⟩
    exact Option.isSome_iff_exists.mp hs
  have hfindL : l.findL x = some (some pr0.1) := by
    rw [LList.findL, if_neg hheadne]
    have h := findAux_suffix x l.mem l.mem none l.mem.length (List.suffix_refl _) hnd hchain
      (le_refl _)
    rw [hhead, h, hfind]
    rfl
  obtain ⟨j, hj1, hj2, hj3⟩ := find?_first_index _ l.mem pr0 hfind
  have hj2x : pr0.2.value = x := by simpa using hj2
  have hvj : l.vals[j]? = some x := by
    rw [LList.vals, valsOf, List.getElem?_map, hj1]
    simp [hj2x]
  have hmin : ∀ k : Nat, k < j → l.vals[k]? ≠ some x := by
    intro k hk hkx
    rw [LList.vals, valsOf, List.getElem?_map] at hkx
    rcases Option.map_eq_some'.mp hkx with ⟨q, hq1, hq2⟩
    have := hj3 k hk q hq1
    simp [hq2] at this
  have hjn : j ≤ n := by
    by_contra h
    exact hmin n (by omega) hx
  have hmem0 : pr0 ∈ l.mem := List.mem_of_find?_eq_some hfind
  have hlook : lookupMem l.mem pr0.1 = some pr0.2 :=
    lookupMem_eq_of_mem l.mem pr0.1 pr0.2 hmem0 hnd
  have hptr := chainWFb_ptr_ids l.mem none hchain pr0 hmem0
  have hp : ∀ p, pr0.2.prev = some p → p ∈ idsOf l.mem := by
    intro p hps
    rcases hptr.2 p hps with h | h
    · simp at h
    · exact h
  obtain ⟨m2, hrm, hids2, hvals2⟩ := removeIt_some l pr0.1 pr0.2 hlook hp hptr.1
  obtain ⟨pr2, hpr2, hpr2id⟩ : ∃ pr2, m2[j]? = some pr2 ∧ pr2.1 = pr0.1 := by
    have hidj : (idsOf m2)[j]? = some pr0.1 := by
      rw [hids2, idsOf, List.getElem?_map, hj1]
      rfl
    rw [idsOf, List.getElem?_map] at hidj
    rcases Option.map_eq_some'.mp hidj with ⟨pr2, h1, h2⟩
    exact ⟨pr2, h1, h2⟩
  have hmin2 : ∀ k : Nat, k < j → ∀ q, m2[k]? = some q →
      (fun pr => decide (pr.1 = pr0.1)) q = false := by
    intro k hk q hqk
    have hidk : (idsOf l.mem)[k]? = some q.1 := by
      rw [← hids2, idsOf, List.getElem?_map, hqk]
      rfl
    have hidj : (idsOf l.mem)[j]? = some pr0.1 := by
      rw [idsOf, List.getElem?_map, hj1]
      rfl
    by_contra hcon
    have hq1 : q.1 = pr0.1 := by simpa using hcon
    have hklen : k < (idsOf l.mem).length := by
      by_contra hkl
      rw [List.getElem?_eq_none (by omega)] at hidk
      cases hidk
    have hkj : k = j := List.getElem?_inj hklen hnd (by rw [hidk, hidj, hq1])
    omega
  have herase : m2.eraseP (fun pr => decide (pr.1 = pr0.1)) = m2.eraseIdx j :=
    eraseP_eq_eraseIdx_of_first _ m2 j pr2 hpr2 (by simp [hpr2id]) hmin2
  refine ⟨⟨m2.eraseP (fun pr => decide (pr.1 = pr0.1)), l.head, l.tail, l.fresh⟩, j,
    ?_, hjn, hvj, hmin, ?_⟩
  · simp only [LList.removeN, hat, hfindL]
    exact hrm
  · show valsOf (m2.eraseP (fun pr => decide (pr.1 = pr0.1))) = (valsOf l.mem).eraseIdx j
    rw [herase]
    show (m2.eraseIdx j).map (fun p => p.2.value) = (valsOf l.mem).eraseIdx j
    rw [map_eraseIdx]
    show (valsOf m2).eraseIdx j = (valsOf l.mem).eraseIdx j
    rw [hvals2]

/-- C10 witness: on the well-formed two-node list holding `[5, 5]` (node ids
0 and 1), `remove(1)` removes the first node with value 5 - the node at
index 0 - and the node at position 1 survives. -/
theorem linkedList_removeN_by_value_witness :
    (⟨[(0, ⟨5, none, some 1⟩), (1, ⟨5, some 0, none⟩)], some 0, some 1, 2⟩ : LList Nat).WF ∧
    (⟨[(0, ⟨5, none, some 1⟩), (1, ⟨5, some 0, none⟩)], some 0, some 1, 2⟩ :
      LList Nat).vals[1]? = some 5 ∧
    ∃ (l2 : LList Nat) (j : Nat),
      (⟨[(0, ⟨5, none, some 1⟩), (1, ⟨5, some 0, none⟩)], some 0, some 1, 2⟩ :
          LList Nat).removeN 1 = some l2 ∧
      j ≤ 1 ∧
      (⟨[(0, ⟨5, none, some 1⟩), (1, ⟨5, some 0, none⟩)], some 0, some 1, 2⟩ :
          LList Nat).vals[j]? = some 5 ∧
      (∀ k : Nat, k < j →
        (⟨[(0, ⟨5, none, some 1⟩), (1, ⟨5, some 0, none⟩)], some 0, some 1, 2⟩ :
            LList Nat).vals[k]? ≠ some 5) ∧
      l2.vals =
        (⟨[(0, ⟨5, none, some 1⟩), (1, ⟨5, some 0, none⟩)], some 0, some 1, 2⟩ :
            LList Nat).vals.eraseIdx j :=
  ⟨by decide, by decide, linkedList_removeN_by_value _ 1 5 (by decide) (by decide)⟩

/- ------------------------------------------------------------------ -/
/- HashMap<K, V>  (src/HashMap.hpp lines 559-678)                      -/
/- ------------------------------------------------------------------ -/

/-- Model of `HashMap<K, V>`: the bucket array, each bucket being the list
of its `KeyVal` entries in chain order.  In `HashMap`'s own use the bucket
`Array` and the bucket `LinkedList`s behave as plain sequences - `HashMap`
only appends to, iterates, indexes and re-creates them - so the buckets are
embedded directly as lists.  `capacity()` is `m_buckets.size()`, the number
of live buckets. -/
structure HMap (K V : Type) where
  buckets : List (List (K × V))
deriving DecidableEq

section HashMapModel

variable {K V : Type} [DecidableEq K] [Inhabited V]

/-- Embeds `HashMap(capacity)` (lines 573-579): `initBuckets` pushes `capacity`
empty bucket lists. -/
def mkHMap (c : Nat) : HMap K V := ⟨List.replicate c []⟩

/-- Embeds `HashMap::capacity` (lines 622-624): the number of buckets. -/
def hmCapacity (m : HMap K V) : Nat := m.buckets.length

/-- Embeds `HashMap::size` (lines 614-620): the sum of all bucket sizes. -/
def hmSize (m : HMap K V) : Nat := (m.buckets.map List.length).sum

variable (hash : K → Nat) (loadTrigger : Nat → Nat → Bool)

/-- The scan inside `get` (lines 596-600): first entry of the bucket whose
key equals `k`, returning its value. -/
def bucketScan (b : List (K × V)) (k : K) : Option V :=
  (b.find? (fun e => decide (e.1 = k))).map (fun e => e.2)

/-- Embeds `hash(k) % capacity()` selects the bucket; value lookup in it. -/
def hmLookup (m : HMap K V) (k : K) : Option V :=
  bucketScan (m.buckets.getD (hash k % hmCapacity m) []) k

/-- Embeds `bucket.pushBack(KeyVal<K, V>(k))` (line 601): append at the bucket
tail. -/
def hmPushBucket (m : HMap K V) (i : Nat) (e : K × V) : HMap K V :=
  ⟨m.buckets.set i (m.buckets.getD i [] ++ [e])⟩

/-- The drain loop of `rehash` (lines 654-661): all entries, bucket 0 first,
each bucket head to tail. -/
def hmEntries (m : HMap K V) : List (K × V) := m.buckets.flatten

/-- The redistribution loop of `rehash` (lines 667-671): append every
drained entry to bucket `hash(key) % cap` of a fresh table of `cap` empty
buckets. -/
def redistribute (es : List (K × V)) (cap : Nat) : List (List (K × V)) :=
  es.foldl (fun bs e => bs.set (hash e.1 % cap) (bs.getD (hash e.1 % cap) [] ++ [e]))
    (List.replicate cap [])

/-- Embeds `HashMap::rehash` (lines 648-673): no-op when empty; otherwise drain all
entries, double the bucket count, re-initialise that many empty buckets and
redistribute. -/
def hmRehash (m : HMap K V) : HMap K V :=
  if hmSize m = 0 then m
  else ⟨redistribute hash (hmEntries m) (hmCapacity m * 2)⟩

/-- Embeds `HashMap::get` (lines 593-608), with fuel for the recursive call after a
rehash (`none` models non-termination of the C++ recursion).  The load
factor check `float(size())/capacity() >= m_loadFactor` is abstracted by the
Boolean parameter `loadTrigger` applied to size and capacity - its
floating-point evaluation is irrelevant to the properties proved here, which
hold for every trigger.  On a miss the key is appended to its bucket with a
default-constructed value; after a triggered rehash `get` recurses, else it
returns `bucket[bucket.size()-1].value` (the tail entry; `at` on an empty
bucket would be undefined). -/
def hmGet : Nat → HMap K V → K → Option (V × HMap K V)
  | 0, _, _ => none
  | fuel + 1, m, k =>
    match bucketScan (m.buckets.getD (hash k % hmCapacity m) []) k with
    | some v => some (v, m)
    | none =>
      let m1 := hmPushBucket m (hash k % hmCapacity m) (k, (default : V))
      if loadTrigger (hmSize m1) (hmCapacity m1) then
        hmGet fuel (hmRehash hash m1) k
      else
        match (m1.buckets.getD (hash k % hmCapacity m) []).getLast? with
        | some e => some (e.2, m1)
        | none => none

/-- Replace the value of the first entry with key `k`. -/
def replaceFirst : List (K × V) → K → V → List (K × V)
  | [], _, _ => []
  | e :: es, k, v => if e.1 = k then (e.1, v) :: es else e :: replaceFirst es k v

/-- Writing through the reference returned by `get`: in every branch of
`get` the returned reference denotes the first entry with key `k` in bucket
`hash(k) % capacity()` of the resulting table (on a hit, the first match the
scan stopped at; on a miss without rehash, the just-appended tail entry,
which is the only entry with key `k` in that bucket since the scan found
none; after a rehash, the first match found by the recursive call). -/
def hmUpdateFirst (m : HMap K V) (k : K) (v : V) : HMap K V :=
  ⟨m.buckets.set (hash k % hmCapacity m)
    (replaceFirst (m.buckets.getD (hash k % hmCapacity m) []) k v)⟩

/-- Embeds `map[k] = v`: run `get` (which inserts `k` on a miss), then assign `v`
through the returned reference. -/
def hmSet (m : HMap K V) (k : K) (v : V) : Option (HMap K V) :=
  (hmGet hash loadTrigger 2 m k).map (fun r => hmUpdateFirst hash r.2 k v)

/-- Well-formedness invariant of the table: at least one bucket, every entry
lives in the bucket its key hashes to, and within each bucket keys are
distinct. -/
@[reducible] def hmWF (m : HMap K V) : Prop :=
  0 < hmCapacity m ∧
  (∀ i : Nat, i < hmCapacity m →
    ∀ e ∈ m.buckets.getD i [], hash e.1 % hmCapacity m = i) ∧
  (∀ i : Nat, i < hmCapacity m → ((m.buckets.getD i []).map Prod.fst).Nodup)

/-- The states reachable from a constructed `HashMap` by `get`/`operator[]`
reads and `map[k] = v` assignments. -/
inductive hmReach (hash : K → Nat) (loadTrigger : Nat → Nat → Bool) : HMap K V → Prop
  | init (c : Nat) (hc : 0 < c) : hmReach hash loadTrigger (mkHMap c)
  | step (m : HMap K V) (k : K) (v : V) (m2 : HMap K V) :
      hmReach hash loadTrigger m → hmGet hash loadTrigger 2 m k = some (v, m2) →
      hmReach hash loadTrigger m2
  | stepSet (m : HMap K V) (k : K) (v : V) (m2 : HMap K V) :
      hmReach hash loadTrigger m → hmSet hash loadTrigger m k v = some m2 →
      hmReach hash loadTrigger m2

end HashMapModel

theorem sum_length_set_append {α : Type} :
    ∀ (bs : List (List α)) (i : Nat), i < bs.length → ∀ e : α,
      ((bs.set i (bs.getD i [] ++ [e])).map List.length).sum = (bs.map List.length).sum + 1
  | [], i, hi, e => by simp at hi
  | b :: t, 0, _, e => by
    simp only [List.getD_cons_zero, List.set_cons_zero, List.map_cons, List.sum_cons,
      List.length_append, List.length_cons, List.length_nil]
    omega
  | b :: t, i + 1, hi, e => by
    simp only [List.set_cons_succ, List.getD_cons_succ, List.map_cons, List.sum_cons]
    rw [sum_length_set_append t i (by simpa using hi) e]
    omega

theorem redistribute_foldl_length {K V : Type} (hash : K → Nat) (cap : Nat) :
    ∀ (es : List (K × V)) (bs : List (List (K × V))),
      (es.foldl (fun bs e => bs.set (hash e.1 % cap) (bs.getD (hash e.1 % cap) [] ++ [e]))
          bs).length = bs.length
  | [], bs => rfl
  | e :: t, bs => by
    rw [List.foldl_cons, redistribute_foldl_length hash cap t _]
    simp

theorem redistribute_foldl_getD {K V : Type} (hash : K → Nat) (cap : Nat) :
    ∀ (es : List (K × V)) (bs : List (List (K × V))), bs.length = cap → ∀ i : Nat, i < cap →
      (es.foldl (fun bs e => bs.set (hash e.1 % cap) (bs.getD (hash e.1 % cap) [] ++ [e]))
          bs).getD i []
        = bs.getD i [] ++ es.filter (fun e => decide (hash e.1 % cap = i))
  | [], bs, hlen, i, hi => by simp
  | e :: t, bs, hlen, i, hi => by
    rw [List.foldl_cons]
    have hlen2 : (bs.set (hash e.1 % cap) (bs.getD (hash e.1 % cap) [] ++ [e])).length = cap := by
      rw [List.length_set]
      exact hlen
    rw [redistribute_foldl_getD hash cap t _ hlen2 i hi]
    by_cases hie : hash e.1 % cap = i
    · rw [List.filter_cons_of_pos (by simp [hie])]
      have hset : (bs.set (hash e.1 % cap) (bs.getD (hash e.1 % cap) [] ++ [e])).getD i []
          = bs.getD i [] ++ [e] := by
        rw [hie, List.getD_eq_getElem?_getD, List.getElem?_set_self (by omega)]
        simp [hie]
      rw [hset, List.append_assoc, List.singleton_append]
    · rw [List.filter_cons_of_neg (by simp [hie])]
      have hset : (bs.set (hash e.1 % cap) (bs.getD (hash e.1 % cap) [] ++ [e])).getD i []
          = bs.getD i [] := by
        rw [List.getD_eq_getElem?_getD, List.getElem?_set_ne hie, ← List.getD_eq_getElem?_getD]
      rw [hset]

theorem redistribute_foldl_sum {K V : Type} (hash : K → Nat) (cap : Nat) (hcap : 0 < cap) :
    ∀ (es : List (K × V)) (bs : List (List (K × V))), bs.length = cap →
      ((es.foldl (fun bs e => bs.set (hash e.1 % cap) (bs.getD (hash e.1 % cap) [] ++ [e]))
          bs).map List.length).sum
        = (bs.map List.length).sum + es.length
  | [], bs, hlen => by simp
  | e :: t, bs, hlen => by
    rw [List.foldl_cons]
    have hlen2 : (bs.set (hash e.1 % cap) (bs.getD (hash e.1 % cap) [] ++ [e])).length = cap := by
      rw [List.length_set]
      exact hlen
    rw [redistribute_foldl_sum hash cap hcap t _ hlen2,
      sum_length_set_append bs (hash e.1 % cap) (by rw [hlen]; exact Nat.mod_lt _ hcap) e]
    simp only [List.length_cons]
    omega

theorem hmCapacity_pos_of_size_ne {K V : Type} (m : HMap K V) (hz : hmSize m ≠ 0) :
    0 < hmCapacity m := by
  by_contra hc
  have hb : m.buckets = [] := List.length_eq_zero.mp (by
    simp only [hmCapacity] at hc
    omega)
  rw [hmSize, hb] at hz
  simp at hz

theorem hmSize_rehash {K V : Type} (hash : K → Nat) (m : HMap K V) :
    hmSize (hmRehash hash m) = hmSize m := by
  rw [hmRehash]
  by_cases hz : hmSize m = 0
  · rw [if_pos hz]
  · rw [if_neg hz]
    have hcap := hmCapacity_pos_of_size_ne m hz
    show hmSize ⟨redistribute hash (hmEntries m) (hmCapacity m * 2)⟩ = hmSize m
    rw [hmSize, redistribute]
    rw [redistribute_foldl_sum hash _ (by omega) _ _ (by simp)]
    have hz2 : ((List.replicate (hmCapacity m * 2) ([] : List (K × V))).map List.length).sum
        = 0 := by
      simp
    rw [hz2]
    have hlen : (hmEntries m).length = hmSize m := by
      rw [hmEntries, List.length_flatten, hmSize]
    omega

theorem find_flatten_eq_bucket {K V : Type} [DecidableEq K] :
    ∀ (bs : List (List (K × V))) (k : K) (i : Nat), i < bs.length →
      (∀ j : Nat, j < bs.length → j ≠ i → ∀ e ∈ bs.getD j [], ¬ e.1 = k) →
      bs.flatten.find? (fun e => decide (e.1 = k)) =
        (bs.getD i []).find? (fun e => decide (e.1 = k))
  | [], k, i, hi, _ => by simp at hi
  | b :: t, k, 0, _, hother => by
    rw [List.flatten_cons, List.find?_append]
    have hnone : t.flatten.find? (fun e => decide (e.1 = k)) = none := by
      rw [List.find?_eq_none]
      intro e he
      rcases List.mem_flatten.mp he with ⟨lj, hlj, helj⟩
      rcases List.mem_iff_getElem?.mp hlj with ⟨j2, hj2⟩
      have hj2len : j2 < t.length := by
        by_contra hgt
        rw [List.getElem?_eq_none (by omega)] at hj2
        cases hj2
      have hgd : (b :: t).getD (j2 + 1) [] = lj := by
        rw [List.getD_cons_succ, List.getD_eq_getElem?_getD, hj2]
        rfl
      have := hother (j2 + 1) (by simpa using Nat.succ_lt_succ hj2len) (by omega) e
        (by rw [hgd]; exact helj)
      simpa using this
    rw [hnone, Option.or_none]
    rw [List.getD_cons_zero]
  | b :: t, k, i + 1, hi, hother => by
    rw [List.flatten_cons, List.find?_append]
    have hb : b.find? (fun e => decide (e.1 = k)) = none := by
      rw [List.find?_eq_none]
      intro e he
      have := hother 0 (by simp) (by omega) e (by rw [List.getD_cons_zero]; exact he)
      simpa using this
    rw [hb, Option.none_or, List.getD_cons_succ]
    exact find_flatten_eq_bucket t k i (by simpa using hi) (fun j hj hne e he =>
      hother (j + 1) (by simpa using Nat.succ_lt_succ hj) (by omega) e
        (by rw [List.getD_cons_succ]; exact he))

theorem find?_filter_of_imp {α : Type} (p q : α → Bool) (himp : ∀ e, q e = true → p e = true) :
    ∀ es : List α, (es.filter p).find? q = es.find? q
  | [] => rfl
  | e :: t => by
    by_cases hq : q e
    · have hp : p e = true := himp e hq
      rw [List.filter_cons_of_pos hp, List.find?_cons_of_pos _ hq, List.find?_cons_of_pos _ hq]
    · by_cases hp : p e
      · rw [List.filter_cons_of_pos hp, List.find?_cons_of_neg _ (by simpa using hq),
          List.find?_cons_of_neg _ (by simpa using hq)]
        exact find?_filter_of_imp p q himp t
      · rw [List.filter_cons_of_neg (by simpa using hp),
          List.find?_cons_of_neg _ (by simpa using hq)]
        exact find?_filter_of_imp p q himp t

theorem hmLookup_eq_entries_find {K V : Type} [DecidableEq K] (hash : K → Nat) (m : HMap K V)
    (hcap : 0 < hmCapacity m)
    (hplace : ∀ i : Nat, i < hmCapacity m →
      ∀ e ∈ m.buckets.getD i [], hash e.1 % hmCapacity m = i) (k : K) :
    hmLookup hash m k = ((hmEntries m).find? (fun e => decide (e.1 = k))).map (fun e => e.2) := by
  rw [hmLookup, bucketScan, hmEntries]
  rw [find_flatten_eq_bucket m.buckets k (hash k % hmCapacity m)
    (Nat.mod_lt _ hcap) ?hother]
  case hother =>
    intro j hj hne e he hek
    have := hplace j hj e he
    rw [hek] at this
    exact hne this.symm

theorem hmRehash_buckets_getD {K V : Type} (hash : K → Nat) (m : HMap K V)
    (hz : hmSize m ≠ 0) (i : Nat) (hi : i < hmCapacity m * 2) :
    (hmRehash hash m).buckets.getD i [] =
      (hmEntries m).filter (fun e => decide (hash e.1 % (hmCapacity m * 2) = i)) := by
  rw [hmRehash, if_neg hz]
  show (redistribute hash (hmEntries m) (hmCapacity m * 2)).getD i [] = _
  rw [redistribute, redistribute_foldl_getD hash _ _ _ (by simp) i hi]
  simp

theorem hmCapacity_rehash {K V : Type} (hash : K → Nat) (m : HMap K V) (hz : hmSize m ≠ 0) :
    hmCapacity (hmRehash hash m) = hmCapacity m * 2 := by
  rw [hmRehash, if_neg hz]
  show (redistribute hash (hmEntries m) (hmCapacity m * 2)).length = _
  rw [redistribute, redistribute_foldl_length]
  simp

theorem hmKeys_nodup {K V : Type} [DecidableEq K] (hash : K → Nat) (m : HMap K V)
    (hwf : hmWF hash m) : ((hmEntries m).map Prod.fst).Nodup := by
  obtain ⟨hcap, hplace, hnd⟩ := hwf
  rw [hmEntries, List.map_flatten, List.nodup_flatten]
  constructor
  · intro ks hks
    rcases List.mem_map.mp hks with ⟨b, hb, rfl⟩
    rcases List.mem_iff_getElem?.mp hb with ⟨i, hi⟩
    have hilen : i < m.buckets.length := by
      by_contra h
      rw [List.getElem?_eq_none (by omega)] at hi
      cases hi
    have hgd : m.buckets.getD i [] = b := by
      rw [List.getD_eq_getElem?_getD, hi]
      rfl
    rw [← hgd]
    exact hnd i hilen
  · rw [List.pairwise_iff_getElem]
    intro i j hi hj hij
    intro a hai haj
    have hi' : i < m.buckets.length := by simpa using hi
    have hj' : j < m.buckets.length := by simpa using hj
    rw [List.getElem_map] at hai haj
    rcases List.mem_map.mp hai with ⟨e1, he1, hfe1⟩
    rcases List.mem_map.mp haj with ⟨e2, he2, hfe2⟩
    have hgd1 : m.buckets.getD i [] = m.buckets[i] := by
      rw [List.getD_eq_getElem?_getD, List.getElem?_eq_getElem hi']
      rfl
    have hgd2 : m.buckets.getD j [] = m.buckets[j] := by
      rw [List.getD_eq_getElem?_getD, List.getElem?_eq_getElem hj']
      rfl
    have h1 := hplace i hi' e1 (by rw [hgd1]; exact he1)
    have h2 := hplace j hj' e2 (by rw [hgd2]; exact he2)
    rw [hfe1] at h1
    rw [hfe2] at h2
    rw [h1] at h2
    omega

theorem hmLookup_rehash {K V : Type} [DecidableEq K] (hash : K → Nat) (m : HMap K V)
    (hwf : hmWF hash m) (k : K) :
    hmLookup hash (hmRehash hash m) k = hmLookup hash m k := by
  obtain ⟨hcap, hplace, hnd⟩ := hwf
  by_cases hz : hmSize m = 0
  · rw [hmRehash, if_pos hz]
  · have hcap2 : 0 < hmCapacity m * 2 := by omega
    have hcapr := hmCapacity_rehash hash m hz
    have hplace2 : ∀ i : Nat, i < hmCapacity (hmRehash hash m) →
        ∀ e ∈ (hmRehash hash m).buckets.getD i [],
          hash e.1 % hmCapacity (hmRehash hash m) = i := by
      intro i hi e he
      rw [hcapr] at hi
      rw [hmRehash_buckets_getD hash m hz i hi] at he
      have := List.of_mem_filter he
      rw [hcapr]
      simpa using this
    rw [hmLookup, hcapr,
      hmRehash_buckets_getD hash m hz _ (Nat.mod_lt _ hcap2), bucketScan,
      find?_filter_of_imp _ _ (fun e he => by
        have : e.1 = k := by simpa using he
        simp [this]),
      hmLookup_eq_entries_find hash m hcap hplace k]

theorem hmWF_rehash {K V : Type} [DecidableEq K] (hash : K → Nat) (m : HMap K V)
    (hwf : hmWF hash m) : hmWF hash (hmRehash hash m) := by
  by_cases hz : hmSize m = 0
  · rw [hmRehash, if_pos hz]
    exact hwf
  · have hcap := hwf.1
    have hcapr := hmCapacity_rehash hash m hz
    refine ⟨by rw [hcapr]; omega, ?_, ?_⟩
    · intro i hi e he
      rw [hcapr] at hi
      rw [hmRehash_buckets_getD hash m hz i hi] at he
      rw [hcapr]
      simpa using List.of_mem_filter he
    · intro i hi
      rw [hcapr] at hi
      rw [hmRehash_buckets_getD hash m hz i hi]
      have hsub : List.Sublist
          (((hmEntries m).filter
            (fun e => decide (hash e.1 % (hmCapacity m * 2) = i))).map Prod.fst)
          ((hmEntries m).map Prod.fst) :=
        ((hmEntries m).filter_sublist).map Prod.fst
      exact (hmKeys_nodup hash m hwf).sublist hsub

theorem hmSize_pushBucket {K V : Type} (m : HMap K V) (i : Nat) (hi : i < hmCapacity m)
    (e : K × V) : hmSize (hmPushBucket m i e) = hmSize m + 1 := by
  rw [hmSize, hmPushBucket]
  exact sum_length_set_append m.buckets i hi e

theorem hmCapacity_pushBucket {K V : Type} (m : HMap K V) (i : Nat) (e : K × V) :
    hmCapacity (hmPushBucket m i e) = hmCapacity m := by
  rw [hmCapacity, hmPushBucket]
  simp [hmCapacity]

theorem hmPushBucket_getD_self {K V : Type} (m : HMap K V) (i : Nat) (hi : i < hmCapacity m)
    (e : K × V) :
    (hmPushBucket m i e).buckets.getD i [] = m.buckets.getD i [] ++ [e] := by
  rw [hmPushBucket]
  show (m.buckets.set i _).getD i [] = _
  rw [List.getD_eq_getElem?_getD, List.getElem?_set_self (by simpa [hmCapacity] using hi)]
  rfl

theorem hmPushBucket_getD_ne {K V : Type} (m : HMap K V) (i j : Nat) (hne : i ≠ j)
    (e : K × V) :
    (hmPushBucket m i e).buckets.getD j [] = m.buckets.getD j [] := by
  rw [hmPushBucket]
  show (m.buckets.set i _).getD j [] = _
  rw [List.getD_eq_getElem?_getD, List.getElem?_set_ne hne, ← List.getD_eq_getElem?_getD]

theorem hmLookup_pushBucket_self {K V : Type} [DecidableEq K] (hash : K → Nat)
    (m : HMap K V) (k : K) (v : V) (hcap : 0 < hmCapacity m)
    (hmiss : hmLookup hash m k = none) :
    hmLookup hash (hmPushBucket m (hash k % hmCapacity m) (k, v)) k = some v := by
  rw [hmLookup, hmCapacity_pushBucket,
    hmPushBucket_getD_self m _ (Nat.mod_lt _ hcap) _, bucketScan, List.find?_append]
  have hnone : (m.buckets.getD (hash k % hmCapacity m) []).find?
      (fun e => decide (e.1 = k)) = none := by
    rw [hmLookup, bucketScan] at hmiss
    exact Option.map_eq_none'.mp hmiss
  rw [hnone, Option.none_or]
  simp [List.find?]

theorem hmWF_pushBucket_miss {K V : Type} [DecidableEq K] (hash : K → Nat)
    (m : HMap K V) (k : K) (v : V) (hwf : hmWF hash m)
    (hmiss : hmLookup hash m k = none) :
    hmWF hash (hmPushBucket m (hash k % hmCapacity m) (k, v)) := by
  obtain ⟨hcap, hplace, hnd⟩ := hwf
  have hlt := Nat.mod_lt (hash k) hcap
  refine ⟨?_, ?_, ?_⟩
  · rw [hmCapacity_pushBucket]
    exact hcap
  · intro i hi e he
    rw [hmCapacity_pushBucket] at hi
    rw [hmCapacity_pushBucket]
    by_cases hie : hash k % hmCapacity m = i
    · subst hie
      rw [hmPushBucket_getD_self m _ hlt _] at he
      rcases List.mem_append.mp he with h | h
      · exact hplace _ hi e h
      · have : e = (k, v) := by simpa using h
        rw [this]
    · rw [hmPushBucket_getD_ne m _ _ hie _] at he
      exact hplace i hi e he
  · intro i hi
    rw [hmCapacity_pushBucket] at hi
    by_cases hie : hash k % hmCapacity m = i
    · subst hie
      rw [hmPushBucket_getD_self m _ hlt _, List.map_append, List.nodup_append]
      refine ⟨hnd _ hi, by simp, ?_⟩
      intro a ha hb
      have hak : a = k := by simpa using hb
      subst hak
      rcases List.mem_map.mp ha with ⟨e, he, hfe⟩
      rw [hmLookup, bucketScan] at hmiss
      have hfind := Option.map_eq_none'.mp hmiss
      rw [List.find?_eq_none] at hfind
      exact hfind e he (by simp [hfe])
    · rw [hmPushBucket_getD_ne m _ _ hie _]
      exact hnd i hi

theorem hmGet_found {K V : Type} [DecidableEq K] [Inhabited V] (hash : K → Nat)
    (loadTrigger : Nat → Nat → Bool) (fuel : Nat) (m : HMap K V) (k : K) (v : V)
    (hfound : hmLookup hash m k = some v) :
    hmGet hash loadTrigger (fuel + 1) m k = some (v, m) := by
  rw [hmLookup] at hfound
  simp only [hmGet]
  rw [hfound]

theorem hmGet_miss {K V : Type} [DecidableEq K] [Inhabited V] (hash : K → Nat)
    (loadTrigger : Nat → Nat → Bool) (m : HMap K V) (k : K)
    (hwf : hmWF hash m) (hmiss : hmLookup hash m k = none) :
    ∃ m2 : HMap K V, hmGet hash loadTrigger 2 m k = some ((default : V), m2) ∧
      hmWF hash m2 ∧ hmLookup hash m2 k = some (default : V) ∧
      hmSize m2 = hmSize m + 1 := by
  have hcap := hwf.1
  have hlt := Nat.mod_lt (hash k) hcap
  have hwf1 : hmWF hash (hmPushBucket m (hash k % hmCapacity m) (k, (default : V))) :=
    hmWF_pushBucket_miss hash m k default hwf hmiss
  have hlook1 : hmLookup hash (hmPushBucket m (hash k % hmCapacity m) (k, (default : V))) k
      = some default := hmLookup_pushBucket_self hash m k default hcap hmiss
  have hsize1 : hmSize (hmPushBucket m (hash k % hmCapacity m) (k, (default : V)))
      = hmSize m + 1 := hmSize_pushBucket m _ hlt _
  have hmiss' : bucketScan (m.buckets.getD (hash k % hmCapacity m) []) k = none := by
    rw [hmLookup] at hmiss
    exact hmiss
  cases ht : loadTrigger (hmSize (hmPushBucket m (hash k % hmCapacity m) (k, (default : V))))
      (hmCapacity (hmPushBucket m (hash k % hmCapacity m) (k, (default : V)))) with
  | true =>
    refine ⟨hmRehash hash (hmPushBucket m (hash k % hmCapacity m) (k, (default : V))), ?_,
      hmWF_rehash hash _ hwf1, ?_, ?_⟩
    · show hmGet hash loadTrigger (1 + 1) m k = _
      simp only [hmGet, hmiss', ht, if_true]
      exact hmGet_found hash loadTrigger 0 _ k default
        (by rw [hmLookup_rehash hash _ hwf1 k]; exact hlook1)
    · rw [hmLookup_rehash hash _ hwf1 k]
      exact hlook1
    · rw [hmSize_rehash]
      exact hsize1
  | false =>
    refine ⟨hmPushBucket m (hash k % hmCapacity m) (k, (default : V)), ?_, hwf1, hlook1, hsize1⟩
    show hmGet hash loadTrigger (1 + 1) m k = _
    simp only [hmGet, hmiss', ht, if_false, Bool.false_eq_true]
    rw [hmPushBucket_getD_self m _ hlt _, List.getLast?_concat]

theorem hmGet_lookup_post {K V : Type} [DecidableEq K] [Inhabited V] (hash : K → Nat)
    (loadTrigger : Nat → Nat → Bool) :
    ∀ (fuel : Nat) (m : HMap K V) (k : K) (v : V) (m2 : HMap K V),
      hmGet hash loadTrigger fuel m k = some (v, m2) → hmLookup hash m2 k = some v
  | 0, m, k, v, m2, h => by cases h
  | fuel + 1, m, k, v, m2, h => by
    rcases hscan : bucketScan (m.buckets.getD (hash k % hmCapacity m) []) k with _ | w
    · simp only [hmGet, hscan] at h
      rcases htr : loadTrigger
          (hmSize (hmPushBucket m (hash k % hmCapacity m) (k, (default : V))))
          (hmCapacity (hmPushBucket m (hash k % hmCapacity m) (k, (default : V)))) with _ | _
      · rw [htr] at h
        simp only [Bool.false_eq_true, if_false] at h
        rcases hlast : ((hmPushBucket m (hash k % hmCapacity m)
            (k, (default : V))).buckets.getD (hash k % hmCapacity m) []).getLast? with _ | e
        · rw [hlast] at h
          cases h
        · rw [hlast] at h
          have h2 : (e.2, hmPushBucket m (hash k % hmCapacity m) (k, (default : V)))
              = (v, m2) := Option.some_inj.mp h
          have hv : e.2 = v := congrArg Prod.fst h2
          have hm2 : hmPushBucket m (hash k % hmCapacity m) (k, (default : V)) = m2 :=
            congrArg Prod.snd h2
          by_cases hcap0 : hmCapacity m = 0
          · exfalso
            have hb : m.buckets = [] := List.length_eq_zero.mp hcap0
            rw [hmPushBucket, hb] at hlast
            simp at hlast
          · have hlt : hash k % hmCapacity m < hmCapacity m := Nat.mod_lt _ (by omega)
            rw [hmPushBucket_getD_self m _ hlt _, List.getLast?_concat] at hlast
            have he : (k, (default : V)) = e := Option.some_inj.mp hlast
            rw [← hm2, hmLookup, hmCapacity_pushBucket,
              hmPushBucket_getD_self m _ hlt _, bucketScan, List.find?_append]
            have hnone : (m.buckets.getD (hash k % hmCapacity m) []).find?
                (fun e => decide (e.1 = k)) = none := by
              rw [bucketScan] at hscan
              exact Option.map_eq_none'.mp hscan
            rw [hnone, Option.none_or]
            rw [← hv, ← he]
            simp [List.find?]
      · rw [htr] at h
        simp only [if_true] at h
        exact hmGet_lookup_post hash loadTrigger fuel _ k v m2 h
    · simp only [hmGet, hscan] at h
      have h2 : (w, m) = (v, m2) := Option.some_inj.mp h
      have hv : w = v := congrArg Prod.fst h2
      have hm2 : m = m2 := congrArg Prod.snd h2
      rw [← hm2, hmLookup, hscan, hv]

theorem replaceFirst_keys {K V : Type} [DecidableEq K] (k : K) (v : V) :
    ∀ b : List (K × V), (replaceFirst b k v).map Prod.fst = b.map Prod.fst
  | [] => rfl
  | e :: es => by
    rw [replaceFirst]
    by_cases he : e.1 = k
    · rw [if_pos he]
      simp
    · rw [if_neg he]
      simp [replaceFirst_keys k v es]

theorem bucketScan_replaceFirst {K V : Type} [DecidableEq K] (k : K) (v : V) :
    ∀ (b : List (K × V)) (w : V), bucketScan b k = some w →
      bucketScan (replaceFirst b k v) k = some v
  | [], w, h => by simp [bucketScan] at h
  | e :: es, w, h => by
    rw [replaceFirst]
    by_cases he : e.1 = k
    · rw [if_pos he, bucketScan, List.find?_cons_of_pos _ (by simp [he])]
      rfl
    · rw [if_neg he, bucketScan, List.find?_cons_of_neg _ (by simp [he])]
      rw [bucketScan, List.find?_cons_of_neg _ (by simp [he])] at h
      exact bucketScan_replaceFirst k v es w h

theorem hmLookup_updateFirst {K V : Type} [DecidableEq K] (hash : K → Nat) (m : HMap K V)
    (k : K) (v w : V) (hlook : hmLookup hash m k = some w) :
    hmLookup hash (hmUpdateFirst hash m k v) k = some v := by
  have hcap0 : 0 < hmCapacity m := by
    by_contra hc
    have hb : m.buckets = [] := List.length_eq_zero.mp (by
      simp only [hmCapacity] at hc
      omega)
    rw [hmLookup, hb] at hlook
    simp [bucketScan] at hlook
  have hcap : hmCapacity (hmUpdateFirst hash m k v) = hmCapacity m := by
    rw [hmCapacity, hmUpdateFirst]
    simp [hmCapacity]
  rw [hmLookup, hcap]
  have hgd : (hmUpdateFirst hash m k v).buckets.getD (hash k % hmCapacity m) []
      = replaceFirst (m.buckets.getD (hash k % hmCapacity m) []) k v := by
    rw [hmUpdateFirst]
    show (m.buckets.set _ _).getD _ [] = _
    rw [List.getD_eq_getElem?_getD,
      List.getElem?_set_self (by simpa [hmCapacity] using Nat.mod_lt (hash k) hcap0)]
    rfl
  rw [hgd]
  exact bucketScan_replaceFirst k v _ w (by rw [hmLookup] at hlook; exact hlook)

theorem hmWF_updateFirst {K V : Type} [DecidableEq K] (hash : K → Nat) (m : HMap K V)
    (k : K) (v : V) (hwf : hmWF hash m) : hmWF hash (hmUpdateFirst hash m k v) := by
  obtain ⟨hcap, hplace, hnd⟩ := hwf
  have hcap' : hmCapacity (hmUpdateFirst hash m k v) = hmCapacity m := by
    rw [hmCapacity, hmUpdateFirst]
    simp [hmCapacity]
  have hgd : ∀ i : Nat, (hmUpdateFirst hash m k v).buckets.getD i [] =
      if hash k % hmCapacity m = i then replaceFirst (m.buckets.getD i []) k v
      else m.buckets.getD i [] := by
    intro i
    by_cases hie : hash k % hmCapacity m = i
    · rw [if_pos hie, ← hie, hmUpdateFirst]
      show (m.buckets.set _ _).getD _ [] = _
      rw [List.getD_eq_getElem?_getD,
        List.getElem?_set_self (by simpa [hmCapacity] using Nat.mod_lt (hash k) hcap)]
      rfl
    · rw [if_neg hie, hmUpdateFirst]
      show (m.buckets.set _ _).getD _ [] = _
      rw [List.getD_eq_getElem?_getD, List.getElem?_set_ne hie, ← List.getD_eq_getElem?_getD]
  refine ⟨by rw [hcap']; exact hcap, ?_, ?_⟩
  · intro i hi e he
    rw [hcap'] at hi
    rw [hcap']
    rw [hgd i] at he
    by_cases hie : hash k % hmCapacity m = i
    · rw [if_pos hie] at he
      have hm : e.1 ∈ (replaceFirst (m.buckets.getD i []) k v).map Prod.fst :=
        List.mem_map_of_mem _ he
      rw [replaceFirst_keys] at hm
      rcases List.mem_map.mp hm with ⟨e2, he2, hfe⟩
      rw [← hfe]
      exact hplace i hi e2 he2
    · rw [if_neg hie] at he
      exact hplace i hi e he
  · intro i hi
    rw [hcap'] at hi
    rw [hgd i]
    by_cases hie : hash k % hmCapacity m = i
    · rw [if_pos hie, replaceFirst_keys]
      exact hnd i hi
    · rw [if_neg hie]
      exact hnd i hi

theorem hmWF_get {K V : Type} [DecidableEq K] [Inhabited V] (hash : K → Nat)
    (loadTrigger : Nat → Nat → Bool) (m : HMap K V) (k : K) (v : V) (m2 : HMap K V)
    (hwf : hmWF hash m) (hget : hmGet hash loadTrigger 2 m k = some (v, m2)) :
    hmWF hash m2 := by
  rcases hscan : hmLookup hash m k with _ | w
  · obtain ⟨m3, hg3, hwf3, _, _⟩ := hmGet_miss hash loadTrigger m k hwf hscan
    have h2 : ((default : V), m3) = (v, m2) := Option.some_inj.mp (hg3.symm.trans hget)
    have hm : m3 = m2 := congrArg Prod.snd h2
    rw [← hm]
    exact hwf3
  · have hf := hmGet_found hash loadTrigger 1 m k w hscan
    have h2 : (w, m) = (v, m2) := Option.some_inj.mp (hf.symm.trans hget)
    have hm : m = m2 := congrArg Prod.snd h2
    rw [← hm]
    exact hwf

/-- C1: for a well-formed table, (a) after the assignment `map[k] = v` a
later `map[k]` returns `v` (for every inserted pair, including assignments
whose internal `get` triggered a rehash), (b) `rehash` leaves `size()`
unchanged, and (c) `rehash` preserves the result of every key lookup, so
every previously retrievable key remains retrievable with its last-written
value across a full rehash cycle. -/
theorem hashMap_roundtrip_rehash {K V : Type} [DecidableEq K] [Inhabited V] (hash : K → Nat)
    (loadTrigger : Nat → Nat → Bool) (m : HMap K V) (hwf : hmWF hash m) :
    (∀ (k : K) (v : V) (m2 : HMap K V), hmSet hash loadTrigger m k v = some m2 →
        hmGet hash loadTrigger 2 m2 k = some (v, m2)) ∧
    hmSize (hmRehash hash m) = hmSize m ∧
    (∀ k : K, hmLookup hash (hmRehash hash m) k = hmLookup hash m k) := by
  refine ⟨?_, hmSize_rehash hash m, fun k => hmLookup_rehash hash m hwf k⟩
  intro k v m2 hset
  rw [hmSet] at hset
  rcases Option.map_eq_some'.mp hset with ⟨r, hr, hup⟩
  have hpost : hmLookup hash r.2 k = some r.1 :=
    hmGet_lookup_post hash loadTrigger 2 m k r.1 r.2 hr
  have hlookup2 : hmLookup hash m2 k = some v := by
    rw [← hup]
    exact hmLookup_updateFirst hash r.2 k v r.1 hpost
  exact hmGet_found hash loadTrigger 1 m2 k v hlookup2

/-- C1 witness: the statement instantiated at the one-bucket map over `Nat`
keys and values with the identity hash and a 3/4 load trigger. -/
theorem hashMap_roundtrip_rehash_witness :
    hmWF (fun n => n) (mkHMap 1 : HMap Nat Nat) ∧
    ((∀ (k v : Nat) (m2 : HMap Nat Nat),
        hmSet (fun n => n) (fun s c => decide (3 * c ≤ 4 * s)) (mkHMap 1) k v = some m2 →
        hmGet (fun n => n) (fun s c => decide (3 * c ≤ 4 * s)) 2 m2 k = some (v, m2)) ∧
      hmSize (hmRehash (fun n => n) (mkHMap 1 : HMap Nat Nat))
        = hmSize (mkHMap 1 : HMap Nat Nat) ∧
      (∀ k : Nat, hmLookup (fun n => n) (hmRehash (fun n => n) (mkHMap 1 : HMap Nat Nat)) k
        = hmLookup (fun n => n) (mkHMap 1 : HMap Nat Nat) k)) :=
  ⟨by decide, hashMap_roundtrip_rehash (fun n => n) (fun s c => decide (3 * c ≤ 4 * s))
    (mkHMap 1) (by decide)⟩

/-- C2: on a well-formed table, `get` of an absent key inserts a new entry
with a default-constructed value at the tail of that key's bucket, returns
the default value, and increases `size()` by exactly 1; a second `get` of
the same key returns the existing (default) entry and leaves the table,
hence `size()`, unchanged. -/
theorem hashMap_get_autoviv {K V : Type} [DecidableEq K] [Inhabited V] (hash : K → Nat)
    (loadTrigger : Nat → Nat → Bool) (m : HMap K V) (k : K)
    (hwf : hmWF hash m) (hmiss : hmLookup hash m k = none) :
    ∃ m2 : HMap K V, hmGet hash loadTrigger 2 m k = some ((default : V), m2) ∧
      hmSize m2 = hmSize m + 1 ∧
      (hmPushBucket m (hash k % hmCapacity m) (k, (default : V))).buckets.getD
          (hash k % hmCapacity m) []
        = m.buckets.getD (hash k % hmCapacity m) [] ++ [(k, (default : V))] ∧
      hmGet hash loadTrigger 2 m2 k = some ((default : V), m2) := by
  obtain ⟨m2, hg, hwf2, hl2, hs2⟩ := hmGet_miss hash loadTrigger m k hwf hmiss
  exact ⟨m2, hg, hs2, hmPushBucket_getD_self m _ (Nat.mod_lt _ hwf.1) _,
    hmGet_found hash loadTrigger 1 m2 k default hl2⟩

/-- C2 witness: the statement instantiated at the one-bucket map with key 5
(the miss inserts, the trigger fires, the rehash runs, and the key still
reads back its default value afterwards). -/
theorem hashMap_get_autoviv_witness :
    hmWF (fun n => n) (mkHMap 1 : HMap Nat Nat) ∧
    hmLookup (fun n => n) (mkHMap 1 : HMap Nat Nat) 5 = none ∧
    ∃ m2 : HMap Nat Nat,
      hmGet (fun n => n) (fun s c => decide (3 * c ≤ 4 * s)) 2 (mkHMap 1) 5
          = some ((default : Nat), m2) ∧
      hmSize m2 = hmSize (mkHMap 1 : HMap Nat Nat) + 1 ∧
      (hmPushBucket (mkHMap 1 : HMap Nat Nat)
          (5 % hmCapacity (mkHMap 1 : HMap Nat Nat)) (5, (default : Nat))).buckets.getD
          (5 % hmCapacity (mkHMap 1 : HMap Nat Nat)) []
        = (mkHMap 1 : HMap Nat Nat).buckets.getD
            (5 % hmCapacity (mkHMap 1 : HMap Nat Nat)) [] ++ [(5, (default : Nat))] ∧
      hmGet (fun n => n) (fun s c => decide (3 * c ≤ 4 * s)) 2 m2 5
          = some ((default : Nat), m2) :=
  ⟨by decide, by decide,
    hashMap_get_autoviv (fun n => n) (fun s c => decide (3 * c ≤ 4 * s)) (mkHMap 1) 5
      (by decide) (by decide)⟩

/-- C5: in every `HashMap` state reachable from a constructed table by any
sequence of `get`/`operator[]` calls - including calls that triggered a
rehash - the well-formedness invariant holds and no two entries anywhere in
the table have equal keys, because `get` always checks the target bucket for
an existing key before inserting. -/
theorem hashMap_no_duplicate_keys {K V : Type} [DecidableEq K] [Inhabited V] (hash : K → Nat)
    (loadTrigger : Nat → Nat → Bool) (m : HMap K V)
    (hr : hmReach hash loadTrigger m) :
    hmWF hash m ∧ ((hmEntries m).map Prod.fst).Nodup := by
  have hwf : hmWF hash m := by
    induction hr with
    | init c hc =>
      have hgd : ∀ i : Nat, (mkHMap c : HMap K V).buckets.getD i [] = [] := by
        intro i
        rw [mkHMap]
        show (List.replicate c ([] : List (K × V))).getD i [] = []
        rw [List.getD_eq_getElem?_getD, List.getElem?_replicate]
        split <;> rfl
      refine ⟨by simpa [hmCapacity, mkHMap] using hc, ?_, ?_⟩
      · intro i hi e he
        rw [hgd i] at he
        cases he
      · intro i hi
        rw [hgd i]
        simp
    | step m k v m2 hrm hget ih => exact hmWF_get hash loadTrigger m k v m2 ih hget
    | stepSet m k v m2 hrm hset ih =>
      rw [hmSet] at hset
      rcases Option.map_eq_some'.mp hset with ⟨r, hr2, hup⟩
      have hwfr : hmWF hash r.2 := hmWF_get hash loadTrigger m k r.1 r.2 ih hr2
      rw [← hup]
      exact hmWF_updateFirst hash r.2 k v hwfr
  exact ⟨hwf, hmKeys_nodup hash m hwf⟩

/-- C5 witness: the statement at the freshly constructed 16-bucket map. -/
theorem hashMap_no_duplicate_keys_witness :
    hmWF (fun n => n) (mkHMap 16 : HMap Nat Nat) ∧
    ((hmEntries (mkHMap 16 : HMap Nat Nat)).map Prod.fst).Nodup :=
  hashMap_no_duplicate_keys (fun n => n) (fun s c => decide (3 * c ≤ 4 * s)) (mkHMap 16)
    (hmReach.init 16 (by decide))
